import Mathlib

/-!
Verification of the `wfe` load-generator engine (cmd/load-generator/wfe).

Shallow embedding of the pure/sequential content of the Go source:
  - `weightedCall` / `sendCall` action selection,
  - the nonce pool (`Nonce`, `addNonce`),
  - snapshot persistence (`Snapshot`, `Restore`),
  - the run-plan executor (`executePlan`),
  - the warmup loop and the `Run` startup/shutdown sequence.

Effects (network calls, random draws, file IO, goroutine interleavings) are
made explicit parameters: the random index fed to a selection is an argument,
the outcome of a network probe is an argument, external codecs (x509 key
marshalling, JOSE signer construction) are function parameters.
-/

namespace WFE

/-! ## Action selection (`weightedCall`, source lines 387-407) -/

/-- Structure `probabilityProfile` from the source: a weight together with the action it
selects. The Go action type `func(*registration)` is abstracted to `α`. -/
structure probabilityProfile (α : Type) where
  prob : Nat
  action : α
deriving DecidableEq

/-- The `choices` map built by `weightedCall`'s loop: for each profile in
order, the keys `n, n+1, ..., n+prob-1` map to its action, and `n` advances by
`prob`. Go map keys here are pairwise distinct, so an association list with
first-match lookup is an exact model. -/
def buildChoices {α : Type} : List (probabilityProfile α) → Nat → List (Nat × α)
  | [], _ => []
  | pp :: rest, n =>
      ((List.range pp.prob).map (fun i => (i + n, pp.action))) ++ buildChoices rest (n + pp.prob)

/-- The accumulated total weight `n` at the end of `weightedCall`'s loop. -/
def totalProb {α : Type} (setup : List (probabilityProfile α)) : Nat :=
  (setup.map (·.prob)).sum

/-- First-match lookup in an association list, the model of a Go map read
(`choices[k]`); `none` models the zero value `nil`. -/
def lookupKey {α : Type} : List (Nat × α) → Nat → Option α
  | [], _ => none
  | (i, a) :: rest, k => if i = k then some a else lookupKey rest k

/-- Function `weightedCall` (source lines 393-407): build the expanded `choices` map;
if it is empty return `nil` (`none`), otherwise return the entry at the drawn
index `k` (in Go, `k = mrand.Intn(n)`; the draw is an explicit argument
here). -/
def weightedCall {α : Type} (setup : List (probabilityProfile α)) (k : Nat) : Option α :=
  let choices := buildChoices setup 0
  if choices.isEmpty then none
  else lookupKey choices k

/-- Modelled from the spec's words, for comparison with `weightedCall`: the
action whose cumulative-weight interval contains the drawn index `k`. -/
def cumulativeSelect {α : Type} : List (probabilityProfile α) → Nat → Option α
  | [], _ => none
  | pp :: rest, k => if k < pp.prob then some pp.action else cumulativeSelect rest (k - pp.prob)

/-! ## `sendCall` (source lines 409-432) -/

/-- Labels for the four protocol actions dispatched by `sendCall`; the Go
action functions (`newRegistration`, `newAuthorization`, `newCertificate`,
`revokeCertificate`) are abstracted to these labels. -/
inductive LAction
  | createActor
  | createAuthorization
  | issueCertificate
  | revokeCertificate
deriving DecidableEq, Repr

/-- Per-actor lifecycle state visible to `sendCall`'s eligibility tests: the
lengths of `reg.auths` and `reg.certs`. -/
structure RegState where
  auths : Nat
  certs : Nat
deriving DecidableEq

/-- The weighted candidate list built by `sendCall` (source lines 410-428):
create-actor (weight 1) iff `maxRegs == 0 || len(regs) < maxRegs`; if a random
registration was found, create-authorization (weight 3) always, issue-certificate
(weight 4) iff it has an authorization, revoke-certificate (weight 2) iff it has
a certificate. `pop` is `len(s.regs)`; `reg` is the result of `getReg`
(`none` when the store is empty). -/
def actionList (maxRegs pop : Nat) (reg : Option RegState) :
    List (probabilityProfile LAction) :=
  (if maxRegs = 0 ∨ pop < maxRegs then [⟨1, LAction.createActor⟩] else []) ++
  (match reg with
   | none => []
   | some r =>
       [⟨3, LAction.createAuthorization⟩] ++
       (if 0 < r.auths then [⟨4, LAction.issueCertificate⟩] else []) ++
       (if 0 < r.certs then [⟨2, LAction.revokeCertificate⟩] else []))

/-- The action-list of a tick on which all four actions are eligible. -/
def fullActionList : List (probabilityProfile LAction) :=
  actionList 0 1 (some ⟨1, 1⟩)

/-- Outcome of `weightedCall(actionList)(reg)` on one dispatch tick (source
line 430): if `weightedCall` returns `nil` the Go call through the nil
function pointer crashes; otherwise the drawn action runs. -/
inductive TickOutcome
  | dispatched (a : LAction)
  | nilCallCrash
deriving DecidableEq, Repr

/-- One `sendCall` tick over an explicit candidate list and random draw `k`. -/
def dispatchTick (setup : List (probabilityProfile LAction)) (k : Nat) : TickOutcome :=
  match weightedCall setup k with
  | some a => TickOutcome.dispatched a
  | none => TickOutcome.nilCallCrash

/-- The full `sendCall` tick: builds the candidate list from the store state
and invokes the drawn action. -/
def sendCall (maxRegs pop : Nat) (reg : Option RegState) (k : Nat) : TickOutcome :=
  dispatchTick (actionList maxRegs pop reg) k

/-! ## Nonce pool (source lines 333-365) -/

/-- Outcome of the synchronous `HEAD apiBase/directory` probe performed by
`Nonce` when the pool is empty: transport failure, a response without a
`Replay-Nonce` header, or a response carrying one. -/
inductive ProbeResult
  | transportErr
  | noHeader
  | header (nonce : String)
deriving DecidableEq

/-- Function `Nonce` (source lines 333-359). On an empty pool it performs exactly one
probe (the probe count is the third component of the result) and returns the
probed header token, or an error on transport failure or a missing header; on
a non-empty pool it pops the front token and performs no probe. The probe
calls `client.Head` directly rather than `post`, so a probed token is never
fed back into the pool through `addNonce`. -/
def NonceTake : List String → ProbeResult → (Except String String) × List String × Nat
  | [], probe =>
      match probe with
      | ProbeResult.transportErr => (Except.error "transport failure", [], 1)
      | ProbeResult.noHeader => (Except.error "Nonce header not supplied!", [], 1)
      | ProbeResult.header n => (Except.ok n, [], 1)
  | n :: rest, _ => (Except.ok n, rest, 0)

/-- Function `addNonce` (source lines 361-365): append the token at the back of the
pool. -/
def addNonce (pool : List String) (nonce : String) : List String :=
  pool ++ [nonce]

/-! ## Persistence (`Snapshot` / `Restore`, source lines 76-138) -/

/-- Structure `registration` from the source. The RSA private key and the JOSE signer
are abstracted to type parameters `K` and `S`; the two id lists are kept. -/
structure registration (K S : Type) where
  key : K
  signer : S
  auths : List String
  certs : List String
deriving DecidableEq

/-- Structure `rawRegistration` from the source (lines 76-80): the persisted projection
of a registration. The `Auths` field is commented out in the source and so
absent here; key bytes are abstracted to `B`. -/
structure rawRegistration (B : Type) where
  Certs : List String
  RawKey : B
deriving DecidableEq

/-- Function `Snapshot` (source lines 87-103): serialize each registration, in store
order, to its certificate ids and marshalled key bytes
(`x509.MarshalPKCS1PrivateKey`, abstracted to `marshal`). The JSON and file
layers are treated as the identity on the record list. -/
def Snapshot {K S B : Type} (marshal : K → B) (regs : List (registration K S)) :
    List (rawRegistration B) :=
  regs.map (fun r => { Certs := r.certs, RawKey := marshal r.key })

/-- One iteration of `Restore`'s loop (source lines 118-135): parse the key
(`x509.ParsePKCS1PrivateKey`, abstracted to `parse`), build a signer
(`jose.NewSigner` plus `SetNonceSource`, abstracted to `mkSigner`); failure
of either step skips the record (`continue`). A restored registration carries
the record's cert ids and an empty auth list. -/
def restoreRecord {K S B : Type} (parse : B → Option K) (mkSigner : K → Option S)
    (r : rawRegistration B) : Option (registration K S) :=
  match parse r.RawKey with
  | none => none
  | some key =>
      match mkSigner key with
      | none => none
      | some signer => some { key := key, signer := signer, auths := [], certs := r.Certs }

/-- Function `Restore` (source lines 106-138): process the snapshot records in order,
appending each successfully reconstructed registration to the existing store
(`s.regs = append(s.regs, ...)`). -/
def Restore {K S B : Type} (parse : B → Option K) (mkSigner : K → Option S)
    (regs : List (registration K S)) : List (rawRegistration B) → List (registration K S)
  | [] => regs
  | r :: rest =>
      match restoreRecord parse mkSigner r with
      | none => Restore parse mkSigner regs rest
      | some reg => Restore parse mkSigner (regs ++ [reg]) rest

/-! ## Run-plan executor (`executePlan`, source lines 27-31 and 179-185) -/

/-- Structure `RatePeriod` from the source; the duration and the rate are modelled as
integers (nanoseconds, actions per second). -/
structure RatePeriod where
  For : Int
  Rate : Int
deriving DecidableEq

/-- One observable event of the plan executor: it stores a segment's rate
into the shared throughput variable, then sleeps for the segment's
duration. -/
structure PlanEvent where
  setRate : Int
  wait : Int
deriving DecidableEq

/-- Function `executePlan` (source lines 179-185) as a sequential trace semantics:
starting from throughput `t`, iterate the plan segments in order; return the
ordered list of (store rate, sleep) events and the throughput left in effect
when the loop terminates. -/
def executePlan (t : Int) : List RatePeriod → List PlanEvent × Int
  | [] => ([], t)
  | p :: rest =>
      let res := executePlan p.Rate rest
      ({ setRate := p.Rate, wait := p.For } :: res.1, res.2)

/-! ## Warmup (source lines 187-227) and population effects -/

/-- Modelled from the spec: `newRegistration` is not among the provided
source files (only its call sites are). Per the spec it is the
account-creation action — it sends an account-registration request and
appends the new actor to the store — so its effect on the population is an
unconditional increment. -/
def newRegistration (pop : Nat) : Nat := pop + 1

/-- The warmup worker loop (source lines 192-204), sequential single-worker
form: while `len(s.regs) < s.warmupRegs`, run `newRegistration`; then exit.
Returns the final population. -/
def warmup (warmupRegs : Nat) (pop : Nat) : Nat :=
  if pop < warmupRegs then warmup warmupRegs (newRegistration pop) else pop
termination_by warmupRegs - pop
decreasing_by simp [newRegistration]; omega

/-- Population after one `sendCall` tick (source lines 409-432): only the
create-actor action appends a registration; the other three actions mutate a
single registration's lifecycle lists and leave the population unchanged. -/
def sendCallPop (maxRegs pop : Nat) (reg : Option RegState) (k : Nat) : Nat :=
  match sendCall maxRegs pop reg k with
  | TickOutcome.dispatched LAction.createActor => newRegistration pop
  | _ => pop

/-! ## `Run` (source lines 230-280) -/

/-- The externally observable stages of `Run`, in program order. -/
inductive RunEvent
  | warmupEv
  | subprocStartEv
  | planStartEv
  | dispatchLoopEv
  | drainEv
  | killEv
  | stopTimestampEv
deriving DecidableEq

/-- How `Run` terminates: normal return of `nil`, return of the subprocess
start error, or the nil-pointer panic from calling `Kill` on a nil
`challSrvProc` handle. -/
inductive RunOutcome
  | ok
  | startError
  | nilProcessCrash
deriving DecidableEq

/-- The run configuration branches `Run` actually tests. -/
structure RunCfg where
  warmupNeeded : Bool
  dontRunChallSrv : Bool
  startFails : Bool
  planNonempty : Bool
  killFails : Bool
deriving DecidableEq

/-- The tail of `Run` after the subprocess-start block (source lines
247-279): start the plan task if a plan is configured, run the dispatch loop
for the configured runtime, signal stop and drain in-flight actions
(`wg.Wait`), then call `s.challSrvProc.Kill()`. `proc = none` models a nil
`challSrvProc` handle, on which the `Kill` method call dereferences nil and
panics before the stop timestamp is recorded; a `Kill` error on a live handle
is only logged, the stop timestamp is still recorded and `Run` returns
`nil`. -/
def runFinish (evs : List RunEvent) (proc : Option Unit) (c : RunCfg) :
    RunOutcome × List RunEvent :=
  let evs := evs ++ (if c.planNonempty then [RunEvent.planStartEv] else []) ++
    [RunEvent.dispatchLoopEv, RunEvent.drainEv]
  match proc with
  | none => (RunOutcome.nilProcessCrash, evs)
  | some _ => (RunOutcome.ok, evs ++ [RunEvent.killEv, RunEvent.stopTimestampEv])

/-- Function `Run` (source lines 230-280): run warmup if the population is below the
warmup target; unless `dontRunChallSrv`, start the challenge-server
subprocess and return its error on start failure (nothing after the start
block executes); otherwise hand over to the dispatch-and-shutdown tail with
the live process handle. -/
def Run (c : RunCfg) : RunOutcome × List RunEvent :=
  let evs := if c.warmupNeeded then [RunEvent.warmupEv] else []
  if c.dontRunChallSrv then
    runFinish evs none c
  else if c.startFails then
    (RunOutcome.startError, evs)
  else
    runFinish (evs ++ [RunEvent.subprocStartEv]) (some ()) c

/-! ## Lemmas -/

lemma lookupKey_append {α : Type} (l₁ l₂ : List (Nat × α)) (k : Nat) :
    lookupKey (l₁ ++ l₂) k =
      match lookupKey l₁ k with
      | some a => some a
      | none => lookupKey l₂ k := by
  induction l₁ with
  | nil => rfl
  | cons p rest ih =>
      obtain ⟨i, a⟩ := p
      by_cases h : i = k <;> simp [lookupKey, h, ih]

lemma lookupKey_block {α : Type} (p : Nat) (a : α) (n k : Nat) :
    lookupKey ((List.range p).map (fun i => (i + n, a))) k =
      if n ≤ k ∧ k < n + p then some a else none := by
  induction p generalizing n with
  | zero =>
      simp only [List.range_zero, List.map_nil, lookupKey]
      rw [if_neg (by omega)]
  | succ q ih =>
      rw [List.range_succ_eq_map]
      simp only [List.map_cons, List.map_map]
      have hcomp : ((fun i => (i + n, a)) ∘ Nat.succ) = (fun i => (i + (n + 1), a)) := by
        funext i
        simp [Function.comp]
        omega
      rw [hcomp]
      by_cases h : n = k
      · simp [lookupKey, h]
      · simp only [lookupKey, Nat.zero_add, if_neg h]
        rw [ih (n + 1)]
        by_cases h2 : n + 1 ≤ k ∧ k < n + 1 + q
        · have hB : n ≤ k ∧ k < n + (q + 1) := by omega
          rw [if_pos h2, if_pos hB]
        · have hB : ¬(n ≤ k ∧ k < n + (q + 1)) := by omega
          rw [if_neg h2, if_neg hB]

lemma buildChoices_lookup {α : Type} (setup : List (probabilityProfile α)) (n k : Nat)
    (hk : n ≤ k) (hk2 : k < n + totalProb setup) :
    lookupKey (buildChoices setup n) k = cumulativeSelect setup (k - n) := by
  induction setup generalizing n with
  | nil => simp [totalProb] at hk2; omega
  | cons pp rest ih =>
      simp only [buildChoices, lookupKey_append, lookupKey_block]
      by_cases h : k < n + pp.prob
      · rw [if_pos ⟨hk, h⟩]
        simp only [cumulativeSelect]
        rw [if_pos (by omega)]
      · rw [if_neg (by omega)]
        have htot : k < (n + pp.prob) + totalProb rest := by
          simp only [totalProb, List.map_cons, List.sum_cons] at hk2 ⊢
          omega
        rw [ih (n + pp.prob) (by omega) htot]
        simp only [cumulativeSelect]
        rw [if_neg (by omega)]
        congr 1
        omega

lemma buildChoices_ne_nil {α : Type} (setup : List (probabilityProfile α)) (n : Nat)
    (h : 0 < totalProb setup) : buildChoices setup n ≠ [] := by
  induction setup generalizing n with
  | nil => simp [totalProb] at h
  | cons pp rest ih =>
      simp only [totalProb, List.map_cons, List.sum_cons] at h
      intro hcontra
      rw [buildChoices] at hcontra
      rcases List.append_eq_nil.mp hcontra with ⟨h1, h2⟩
      rcases Nat.eq_zero_or_pos pp.prob with hp | hp
      · have hrest : 0 < totalProb rest := by
          simp only [totalProb]
          omega
        exact ih (n + pp.prob) hrest h2
      · rw [List.map_eq_nil_iff, List.range_eq_nil] at h1
        omega

/-- On every in-range draw, `weightedCall` agrees with the cumulative-interval
selection. -/
lemma weightedCall_eq_cumulativeSelect {α : Type} (setup : List (probabilityProfile α))
    (k : Nat) (hk : k < totalProb setup) :
    weightedCall setup k = cumulativeSelect setup k := by
  unfold weightedCall
  have hne : ¬ (buildChoices setup 0).isEmpty := by
    rw [List.isEmpty_iff]
    exact buildChoices_ne_nil setup 0 (by omega)
  simp only [hne, if_false, Bool.false_eq_true]
  have := buildChoices_lookup setup 0 k (Nat.zero_le k) (by omega)
  simpa using this

/-- `cumulativeSelect` only returns actions listed in the setup. -/
lemma cumulativeSelect_mem {α : Type} (setup : List (probabilityProfile α)) (k : Nat)
    (a : α) (h : cumulativeSelect setup k = some a) : a ∈ setup.map (·.action) := by
  induction setup generalizing k with
  | nil => simp [cumulativeSelect] at h
  | cons pp rest ih =>
      simp only [cumulativeSelect] at h
      by_cases hlt : k < pp.prob
      · rw [if_pos hlt] at h
        simp at h
        simp [h]
      · rw [if_neg hlt] at h
        simp [ih _ h]

/-- Each action with pairwise-distinct actions claims exactly its weight's
worth of indices in `[0, totalProb)` under the cumulative selection. -/
lemma countP_cumulativeSelect {α : Type} [DecidableEq α]
    (setup : List (probabilityProfile α)) (hnd : (setup.map (·.action)).Nodup)
    (pp : probabilityProfile α) (hpp : pp ∈ setup) :
    ((List.range (totalProb setup)).countP
      (fun k => cumulativeSelect setup k = some pp.action)) = pp.prob := by
  induction setup with
  | nil => simp at hpp
  | cons q rest ih =>
      simp only [List.map_cons, List.nodup_cons] at hnd
      obtain ⟨hqnot, hndrest⟩ := hnd
      have htot : totalProb (q :: rest) = q.prob + totalProb rest := by
        simp [totalProb]
      rw [htot, List.range_add, List.countP_append, List.countP_map]
      have hsel1 : ∀ k, k < q.prob →
          cumulativeSelect (q :: rest) k = some q.action := by
        intro k hk
        simp [cumulativeSelect, hk]
      have hsel2 : ∀ k, cumulativeSelect (q :: rest) (q.prob + k) = cumulativeSelect rest k := by
        intro k
        simp only [cumulativeSelect]
        rw [if_neg (by omega)]
        congr 1
        omega
      rcases List.mem_cons.mp hpp with heq | hmem
      · subst heq
        have h1 : (List.range pp.prob).countP
            (fun k => cumulativeSelect (pp :: rest) k = some pp.action) = pp.prob := by
          have := List.countP_eq_length
            (p := fun k => decide (cumulativeSelect (pp :: rest) k = some pp.action))
            (l := List.range pp.prob)
          rw [this.mpr]
          · exact List.length_range pp.prob
          · intro k hk
            rw [List.mem_range] at hk
            simp [hsel1 k hk]
        have h2 : (List.range (totalProb rest)).countP
            ((fun k => decide (cumulativeSelect (pp :: rest) k = some pp.action)) ∘
              (pp.prob + ·)) = 0 := by
          rw [List.countP_eq_zero]
          intro k _
          simp only [Function.comp_apply, hsel2 k, decide_eq_true_eq]
          intro hcontra
          exact hqnot (cumulativeSelect_mem rest k pp.action hcontra)
        rw [h1, h2]
        omega
      · have hne : q.action ≠ pp.action := by
          intro hcontra
          apply hqnot
          rw [hcontra]
          exact List.mem_map.mpr ⟨pp, hmem, rfl⟩
        have h1 : (List.range q.prob).countP
            (fun k => cumulativeSelect (q :: rest) k = some pp.action) = 0 := by
          rw [List.countP_eq_zero]
          intro k hk
          rw [List.mem_range] at hk
          simp [hsel1 k hk, hne]
        have h2 : (List.range (totalProb rest)).countP
            ((fun k => decide (cumulativeSelect (q :: rest) k = some pp.action)) ∘
              (q.prob + ·)) = pp.prob := by
          have hcongr : ∀ k ∈ List.range (totalProb rest),
              ((fun k => decide (cumulativeSelect (q :: rest) k = some pp.action)) ∘
                (q.prob + ·)) k = true ↔
              (fun k => decide (cumulativeSelect rest k = some pp.action)) k = true := by
            intro k _
            simp [Function.comp, hsel2 k]
          rw [List.countP_congr hcongr]
          exact ih hndrest hmem
        rw [h1, h2]
        omega

/-- Same count, stated of `weightedCall` itself. -/
lemma countP_weightedCall {α : Type} [DecidableEq α]
    (setup : List (probabilityProfile α)) (hnd : (setup.map (·.action)).Nodup)
    (pp : probabilityProfile α) (hpp : pp ∈ setup) :
    ((List.range (totalProb setup)).countP
      (fun k => weightedCall setup k = some pp.action)) = pp.prob := by
  have hcongr : ∀ k ∈ List.range (totalProb setup),
      (fun k => decide (weightedCall setup k = some pp.action)) k = true ↔
      (fun k => decide (cumulativeSelect setup k = some pp.action)) k = true := by
    intro k hk
    rw [List.mem_range] at hk
    simp [weightedCall_eq_cumulativeSelect setup k hk]
  rw [List.countP_congr hcongr]
  exact countP_cumulativeSelect setup hnd pp hpp

lemma cumulativeSelect_isSome {α : Type} (setup : List (probabilityProfile α)) (k : Nat)
    (hk : k < totalProb setup) : ∃ a, cumulativeSelect setup k = some a := by
  induction setup generalizing k with
  | nil => simp [totalProb] at hk
  | cons pp rest ih =>
      simp only [cumulativeSelect]
      by_cases h : k < pp.prob
      · exact ⟨pp.action, by rw [if_pos h]⟩
      · rw [if_neg h]
        apply ih
        simp only [totalProb, List.map_cons, List.sum_cons] at hk
        simp only [totalProb]
        omega

lemma lookupKey_mem {α : Type} (l : List (Nat × α)) (k : Nat) (a : α)
    (h : lookupKey l k = some a) : (k, a) ∈ l := by
  induction l with
  | nil => simp [lookupKey] at h
  | cons p rest ih =>
      obtain ⟨i, b⟩ := p
      by_cases hik : i = k
      · rw [lookupKey, if_pos hik] at h
        cases h
        subst hik
        exact List.mem_cons_self _ _
      · rw [lookupKey, if_neg hik] at h
        exact List.mem_cons_of_mem _ (ih h)

lemma buildChoices_action_mem {α : Type} (setup : List (probabilityProfile α)) (n k : Nat)
    (a : α) (h : (k, a) ∈ buildChoices setup n) : a ∈ setup.map (·.action) := by
  induction setup generalizing n with
  | nil => simp [buildChoices] at h
  | cons pp rest ih =>
      rw [buildChoices] at h
      rcases List.mem_append.mp h with hl | hr
      · rcases List.mem_map.mp hl with ⟨i, _, hi⟩
        cases hi
        simp
      · simp only [List.map_cons, List.mem_cons]
        exact Or.inr (ih (n + pp.prob) hr)

lemma weightedCall_action_mem {α : Type} (setup : List (probabilityProfile α)) (k : Nat)
    (a : α) (h : weightedCall setup k = some a) : a ∈ setup.map (·.action) := by
  unfold weightedCall at h
  by_cases he : (buildChoices setup 0).isEmpty
  · simp [he] at h
  · simp only [he, if_false, Bool.false_eq_true] at h
    exact buildChoices_action_mem setup 0 k a (lookupKey_mem _ k a h)

lemma createActor_mem_actionList (maxRegs pop : Nat) (reg : Option RegState)
    (h : LAction.createActor ∈ (actionList maxRegs pop reg).map (·.action)) :
    maxRegs = 0 ∨ pop < maxRegs := by
  by_contra hc
  rw [not_or] at hc
  obtain ⟨h1, h2⟩ := hc
  unfold actionList at h
  rw [if_neg (by omega)] at h
  rw [List.nil_append] at h
  cases reg with
  | none => simp at h
  | some r =>
      by_cases ha : 0 < r.auths <;> by_cases hcrt : 0 < r.certs <;>
        simp [ha, hcrt] at h

lemma warmup_eq_of_le (t pop : Nat) (h : pop ≤ t) : warmup t pop = t := by
  have H : ∀ d p, t - p = d → p ≤ t → warmup t p = t := by
    intro d
    induction d with
    | zero =>
        intro p hd hle
        have hpt : p = t := by omega
        subst hpt
        rw [warmup, if_neg (by omega)]
    | succ e ih =>
        intro p hd hle
        have hlt : p < t := by omega
        rw [warmup, if_pos hlt]
        exact ih (p + 1) (by omega) (by omega)
  exact H (t - pop) pop rfl h

/-! ## Claims -/

/-- C1: `weightedCall` performs a uniform draw over the weight-expanded index
space.  First conjunct: on every in-range draw `k`, the action returned is
the one whose cumulative-weight interval contains `k`.  Second conjunct: for
any candidate list with pairwise-distinct actions, each listed action is
returned for exactly its weight's worth of the `totalProb` indices.  Third
conjunct: on the fully eligible list with weights 1, 3, 4, 2 the total is 10
and the four actions receive 1, 3, 4 and 2 of the 10 indices — probabilities
10%, 30%, 40% and 20% under a uniform draw of `k`. -/
theorem weightedCall_uniform_draw :
    (∀ (α : Type) (setup : List (probabilityProfile α)) (k : Nat),
        k < totalProb setup → weightedCall setup k = cumulativeSelect setup k) ∧
    (∀ (α : Type) [DecidableEq α] (setup : List (probabilityProfile α)),
        (setup.map (·.action)).Nodup → ∀ pp ∈ setup,
        ((List.range (totalProb setup)).countP
          (fun k => weightedCall setup k = some pp.action)) = pp.prob) ∧
    (totalProb fullActionList = 10 ∧
      ∀ pp ∈ fullActionList,
        ((List.range 10).countP
          (fun k => weightedCall fullActionList k = some pp.action)) = pp.prob) := by
  refine ⟨?_, ?_, by decide, by decide⟩
  · intro α setup k hk
    exact weightedCall_eq_cumulativeSelect setup k hk
  · intro α _ setup hnd pp hpp
    exact countP_weightedCall setup hnd pp hpp

/-- Witness for C1 at the fully eligible list: the draw `k = 5` falls in the
issue-certificate interval `[4, 8)`, and issue-certificate claims 4 of the 10
indices. -/
theorem weightedCall_uniform_draw_witness :
    weightedCall fullActionList 5 = cumulativeSelect fullActionList 5 ∧
    ((List.range (totalProb fullActionList)).countP
      (fun k => weightedCall fullActionList k = some LAction.issueCertificate)) = 4 :=
  ⟨weightedCall_uniform_draw.1 LAction fullActionList 5 (by decide),
   weightedCall_uniform_draw.2.1 LAction fullActionList (by decide)
     ⟨4, LAction.issueCertificate⟩ (by decide)⟩

/-- C2 counterexample: with population cap `N = 1` and warmup target `2 ≥ N`,
the warmup loop (which only compares the population against the warmup
target, never against the cap) runs until the population reaches 2, so after
warmup the population is 2, not `N = 1`, and the cap is exceeded. -/
theorem warmup_overshoots_cap : warmup 2 0 = 2 ∧ warmup 2 0 ≠ 1 :=
  ⟨warmup_eq_of_le 2 0 (by omega), by rw [warmup_eq_of_le 2 0 (by omega)]; omega⟩

/-- C2 (amended): for population cap `N > 0`, warmup target exactly `N` and
initial population at most `N`, warmup terminates with population exactly
`N`; and a dispatched tick never raises a population that is at most `N`
above `N`, because the create-actor action is only eligible while the
population is below the cap. -/
theorem population_cap_invariant (N pop0 : Nat) (hN : 0 < N) (h0 : pop0 ≤ N) :
    warmup N pop0 = N ∧
    (∀ (pop : Nat) (reg : Option RegState) (k : Nat), pop ≤ N →
      sendCallPop N pop reg k ≤ N) := by
  refine ⟨warmup_eq_of_le N pop0 h0, ?_⟩
  intro pop reg k hpop
  unfold sendCallPop
  cases hsc : sendCall N pop reg k with
  | nilCallCrash => exact hpop
  | dispatched a =>
      cases a with
      | createActor =>
          have hmem : LAction.createActor ∈ (actionList N pop reg).map (·.action) := by
            unfold sendCall dispatchTick at hsc
            cases hw : weightedCall (actionList N pop reg) k with
            | none => rw [hw] at hsc; simp at hsc
            | some a' =>
                rw [hw] at hsc
                cases hsc
                exact weightedCall_action_mem _ k _ hw
          have := createActor_mem_actionList N pop reg hmem
          simp only [newRegistration]
          omega
      | createAuthorization => exact hpop
      | issueCertificate => exact hpop
      | revokeCertificate => exact hpop

/-- Witness for C2 (amended) at cap 3: warmup from an empty store reaches
exactly 3 actors, and a tick at the cap leaves the population at 3. -/
theorem population_cap_invariant_witness :
    warmup 3 0 = 3 ∧ sendCallPop 3 3 (some ⟨1, 1⟩) 2 ≤ 3 :=
  ⟨(population_cap_invariant 3 0 (by omega) (by omega)).1,
   (population_cap_invariant 3 0 (by omega) (by omega)).2 3 (some ⟨1, 1⟩) 2 (by omega)⟩

/-- C3: the nonce pool is FIFO and single-use. After `Add "n1"` then
`Add "n2"` on an empty pool, two successive takes return `"n1"` then `"n2"`,
each removed from the pool as it is returned, with no network probe; in
general a take from a non-empty pool pops the front token.  A take on an
empty pool performs exactly one probe and returns the probed header token, or
an error on transport failure or a missing header. -/
theorem noncePool_fifo :
    (∀ probe, NonceTake (addNonce (addNonce [] "n1") "n2") probe =
      (Except.ok "n1", ["n2"], 0)) ∧
    (∀ probe, NonceTake ["n2"] probe = (Except.ok "n2", [], 0)) ∧
    (∀ nonce pool probe, NonceTake (nonce :: pool) probe = (Except.ok nonce, pool, 0)) ∧
    (∀ n, NonceTake [] (ProbeResult.header n) = (Except.ok n, [], 1)) ∧
    NonceTake [] ProbeResult.transportErr = (Except.error "transport failure", [], 1) ∧
    NonceTake [] ProbeResult.noHeader =
      (Except.error "Nonce header not supplied!", [], 1) :=
  ⟨fun _ => rfl, fun _ => rfl, fun _ _ _ => rfl, fun _ => rfl, rfl, rfl⟩

/-- C4: Snapshot/Restore round-trip.  For an actor with key `k` and
certificate ids `cs`, when key parsing inverts marshalling (as
`x509.ParsePKCS1PrivateKey` does for `x509.MarshalPKCS1PrivateKey` on a valid
RSA key) and a signer can be built, restoring a snapshot of exactly that
actor into a fresh empty store yields exactly one actor with the original
key (so its signatures verify against the original public key), the same
certificate-id list, and an empty authorization list — authorization ids are
not persisted. -/
theorem snapshot_restore_roundtrip {K S B : Type} (marshal : K → B) (parse : B → Option K)
    (mkSigner : K → Option S) (k : K) (sg s0 : S) (as cs : List String)
    (hparse : parse (marshal k) = some k) (hsigner : mkSigner k = some sg) :
    Restore parse mkSigner [] (Snapshot marshal [⟨k, s0, as, cs⟩]) = [⟨k, sg, [], cs⟩] := by
  simp [Snapshot, Restore, restoreRecord, hparse, hsigner]

/-- Witness for C4 with a concrete invertible codec: key 5, auth ids dropped,
cert ids `["c1", "c2"]` preserved. -/
theorem snapshot_restore_roundtrip_witness :
    Restore (fun b : List Nat => b.head?) (fun _ : Nat => some ()) []
      (Snapshot (fun k : Nat => [k])
        [⟨5, (), ["a1"], ["c1", "c2"]⟩]) = [⟨5, (), [], ["c1", "c2"]⟩] :=
  snapshot_restore_roundtrip (fun k : Nat => [k]) (fun b => b.head?) (fun _ => some ())
    5 () () ["a1"] ["c1", "c2"] rfl rfl

/-- C5 counterexample: on a tick whose weighted candidate list is empty,
`weightedCall` returns `nil` and `sendCall`'s unconditional call through the
returned function pointer crashes — the tick is not a no-op. -/
theorem empty_tick_crashes : dispatchTick [] 0 = TickOutcome.nilCallCrash := by
  decide

/-- C5 (amended): `sendCall` never builds an empty candidate list — when the
store is empty the create-actor action is eligible (the cap test passes with
population 0), and when it is non-empty `getReg` finds a registration and
create-authorization is eligible — so every tick with an in-range draw
dispatches an action and the nil-function crash is unreachable.  (Had the
list been empty, the tick would crash, not no-op: see the counterexample.) -/
theorem sendCall_no_empty_tick (maxRegs pop : Nat) (reg : Option RegState) (k : Nat)
    (hreg : reg.isSome ↔ 0 < pop) (hk : k < totalProb (actionList maxRegs pop reg)) :
    actionList maxRegs pop reg ≠ [] ∧
    ∃ a, sendCall maxRegs pop reg k = TickOutcome.dispatched a := by
  constructor
  · cases reg with
    | none =>
        have hpop : pop = 0 := by
          by_contra hc
          have hs : (Option.isSome (none : Option RegState)) = true := hreg.mpr (by omega)
          simp at hs
        subst hpop
        unfold actionList
        rw [if_pos (by omega)]
        simp
    | some r =>
        unfold actionList
        intro hcontra
        rcases List.append_eq_nil.mp hcontra with ⟨_, h2⟩
        simp at h2
  · obtain ⟨a, ha⟩ := cumulativeSelect_isSome _ k hk
    refine ⟨a, ?_⟩
    unfold sendCall dispatchTick
    rw [weightedCall_eq_cumulativeSelect _ k hk, ha]

/-- Witness for C5 (amended): an empty store with no cap, draw 0 — the tick
dispatches create-actor rather than crashing. -/
theorem sendCall_no_empty_tick_witness :
    actionList 0 0 none ≠ [] ∧
    ∃ a, sendCall 0 0 none 0 = TickOutcome.dispatched a :=
  sendCall_no_empty_tick 0 0 none 0 (by simp) (by decide)

/-- C6: evaluation at the failing input.  First conjunct: with the challenge
subprocess skipped (`dontRunChallSrv = true`), `Run` reaches
`s.challSrvProc.Kill()` with a nil handle and panics — the shutdown never
records the stop timestamp and `Run` does not return.  Second conjunct: with
a live subprocess handle, a failing `Kill` is only logged and `Run` still
completes the full sequence and returns `nil`, as the claim says. -/
theorem run_nil_subprocess_crash :
    (Run ⟨false, true, false, false, false⟩).1 = RunOutcome.nilProcessCrash ∧
    Run ⟨false, false, false, false, true⟩ =
      (RunOutcome.ok, [RunEvent.subprocStartEv, RunEvent.dispatchLoopEv, RunEvent.drainEv,
        RunEvent.killEv, RunEvent.stopTimestampEv]) := by
  constructor <;> rfl

/-- C7: `Restore` is additive and per-record independent: the store after a
restore is exactly the pre-existing actors (unremoved and unmodified, in
order) followed by the successfully reconstructed records in snapshot order;
a record whose key fails to parse or whose signer cannot be built contributes
nothing and does not stop the remaining records from being restored. -/
theorem restore_additive {K S B : Type} (parse : B → Option K) (mkSigner : K → Option S)
    (regs : List (registration K S)) (snap : List (rawRegistration B)) :
    Restore parse mkSigner regs snap =
      regs ++ snap.filterMap (restoreRecord parse mkSigner) := by
  induction snap generalizing regs with
  | nil => simp [Restore]
  | cons r rest ih =>
      rw [Restore]
      cases hr : restoreRecord parse mkSigner r with
      | none => simp [List.filterMap_cons, hr, ih]
      | some reg => simp [List.filterMap_cons, hr, ih]

/-- C8: the plan executor applies segments strictly in sequence — its event
trace is exactly one (store the segment's rate, wait the segment's duration)
event per segment, in plan order — and it terminates after the last segment
leaving the last-set rate in effect (the initial throughput if the plan is
empty). -/
theorem executePlan_sequential (t : Int) (plan : List RatePeriod) :
    executePlan t plan =
      (plan.map (fun p => { setRate := p.Rate, wait := p.For }),
       (plan.map (·.Rate)).getLastD t) := by
  induction plan generalizing t with
  | nil => simp [executePlan]
  | cons p rest ih =>
      simp only [executePlan, ih p.Rate, List.map_cons]
      rw [List.getLastD_cons]

/-- C9: if the challenge-subprocess start fails, `Run` returns the start
error and aborts before dispatch: whatever the rest of the configuration, the
run-plan task is never started, the dispatch loop is never entered, and the
shutdown stages are never reached. -/
theorem run_start_failure_aborts (w pl kl : Bool) :
    (Run ⟨w, false, true, pl, kl⟩).1 = RunOutcome.startError ∧
    RunEvent.planStartEv ∉ (Run ⟨w, false, true, pl, kl⟩).2 ∧
    RunEvent.dispatchLoopEv ∉ (Run ⟨w, false, true, pl, kl⟩).2 := by
  cases w <;> cases pl <;> cases kl <;> decide

/-- C10: a `Nonce` take on an empty pool whose directory probe succeeds
returns the probed header token directly to the caller and does not insert it
into the pool — the pool is exactly as empty after the call as before it. -/
theorem nonce_probe_not_pooled :
    ∀ n, (NonceTake [] (ProbeResult.header n)).1 = Except.ok n ∧
      (NonceTake [] (ProbeResult.header n)).2.1 = [] :=
  fun _ => ⟨rfl, rfl⟩

end WFE
